import Mathlib

/-!
Verification development for the pve-appstore Python SDK core:
the permission allowlist gate (`appstore/permissions.py`), the static
script auditor (`appstore/analyze_script.py`) and the OCI registry
client (`appstore/oci.py`).  Python functions are shallowly embedded as
executable Lean definitions; strings are Lean `String`s (lists of
characters), fallible operations return `Option`/`Except`, and the
registry client's network side effects are recorded as an explicit
operation trace.
-/

/-! ## Shell-glob matching (Python `fnmatch` on POSIX, no case folding) -/

/-- One item of a glob character class: a single character or an inclusive range. -/
inductive ClassItem where
  | single (c : Char)
  | range (lo hi : Char)
deriving DecidableEq

def classItemMatch (c : Char) : ClassItem → Bool
  | .single d => c == d
  | .range lo hi => decide (lo.toNat ≤ c.toNat) && decide (c.toNat ≤ hi.toNat)

/-- A token of a compiled glob pattern. -/
inductive GlobTok where
  | lit (c : Char)
  | anyChar
  | star
  | cls (neg : Bool) (items : List ClassItem)
deriving DecidableEq

/-- Parse the body of a glob character class into items (ranges and single characters). -/
def parseClassItems : List Char → List ClassItem
  | [] => []
  | lo :: '-' :: hi :: rest => .range lo hi :: parseClassItems rest
  | c :: rest => .single c :: parseClassItems rest

/-- Scan a class body after an opening bracket, per `fnmatch` rules: an optional
leading `!` negates, a closing bracket directly after it is literal, the body runs
to the next closing bracket; with no closer the opening bracket itself is literal.
Returns `(negated, body, rest after the closer)`. -/
def scanClass (l : List Char) : Option (Bool × List Char × List Char) :=
  let p := match l with
    | '!' :: t => (true, t)
    | _ => (false, l)
  let q := match p.2 with
    | ']' :: t => (([']'] : List Char), t)
    | _ => (([] : List Char), p.2)
  match q.2.findIdx? (fun c => c == ']') with
  | none => none
  | some i => some (p.1, q.1 ++ q.2.take i, q.2.drop (i + 1))

/-- Compile a glob pattern into tokens (fuel is the pattern length, enough to consume it). -/
def compileGlob : Nat → List Char → List GlobTok
  | 0, _ => []
  | _, [] => []
  | fuel + 1, c :: rest =>
    if c == '*' then .star :: compileGlob fuel rest
    else if c == '?' then .anyChar :: compileGlob fuel rest
    else if c == '[' then
      match scanClass rest with
      | none => .lit '[' :: compileGlob fuel rest
      | some (neg, body, rest') => .cls neg (parseClassItems body) :: compileGlob fuel rest'
    else .lit c :: compileGlob fuel rest

/-- Match a compiled glob pattern against a whole string.  Every recursive call
shrinks the token list or the string, so fuel of `tokens + chars + 1` is enough;
fuel-structural recursion keeps the function kernel-reducible. -/
def tokMatch : Nat → List GlobTok → List Char → Bool
  | 0, _, _ => false
  | _ + 1, [], [] => true
  | _ + 1, [], _ :: _ => false
  | f + 1, .star :: ts, [] => tokMatch f ts []
  | f + 1, .star :: ts, d :: s' => tokMatch f ts (d :: s') || tokMatch f (.star :: ts) s'
  | _ + 1, .anyChar :: _, [] => false
  | f + 1, .anyChar :: ts, _ :: s' => tokMatch f ts s'
  | _ + 1, .lit _ :: _, [] => false
  | f + 1, .lit c :: ts, d :: s' => c == d && tokMatch f ts s'
  | _ + 1, .cls _ _ :: _, [] => false
  | f + 1, .cls neg items :: ts, d :: s' =>
      (neg != items.any (classItemMatch d)) && tokMatch f ts s'

/-- Python `fnmatch.fnmatch(name, pattern)` on POSIX: whole-string glob match. -/
def fnmatchB (candidate pat : String) : Bool :=
  let toks := compileGlob (pat.data.length + 1) pat.data
  tokMatch (toks.length + candidate.data.length + 1) toks candidate.data

/-! ## Python string helpers used by the permission checks -/

/-- Characters removed by Python `str.strip()` with no argument (ASCII whitespace). -/
def isPySpace (c : Char) : Bool :=
  c == ' ' || c == '\t' || c == '\n' || c == '\r' || c == Char.ofNat 11 || c == Char.ofNat 12

/-- Python `s.strip()`. -/
def pyStrip (s : String) : String :=
  ⟨((s.data.dropWhile isPySpace).reverse.dropWhile isPySpace).reverse⟩

/-- Python `s.rstrip("/")`: remove every trailing slash. -/
def rstripSlashes (s : String) : String :=
  ⟨(s.data.reverse.dropWhile (fun c => c == '/')).reverse⟩

def splitWsAux : List Char → List Char → List String
  | [], cur => if cur.isEmpty then [] else [⟨cur.reverse⟩]
  | c :: rest, cur =>
    if isPySpace c then
      if cur.isEmpty then splitWsAux rest [] else (⟨cur.reverse⟩ : String) :: splitWsAux rest []
    else splitWsAux rest (c :: cur)

/-- Python `s.split()` with no argument: split on whitespace runs, dropping empties. -/
def pySplitWs (s : String) : List String := splitWsAux s.data []

/-- Python `s.startswith(pre)`. -/
def startsWithL (s pre : String) : Bool := pre.data.isPrefixOf s.data

/-! ## Permission checks (`appstore/permissions.py`)

Each `check_*` method either returns `None` or raises `PermissionDeniedError`;
it is embedded as a `Bool`, `true` meaning the check passes (no exception). -/

/-- `AppPermissions.check_package`: glob match against the `packages` allowlist. -/
def check_package (packages : List String) (package : String) : Bool :=
  packages.any (fun allowed => fnmatchB package allowed)

def pipSpecifierChar (c : Char) : Bool :=
  c == '[' || c == '<' || c == '>' || c == '=' || c == '!' || c == '~' || c == ';' || c == '@'

/-- `AppPermissions._pip_base_name`: `re.split(r"[\[<>=!~;@]", pkg)[0].strip()`,
the part of the string before the first specifier character, whitespace-stripped. -/
def pip_base_name (pkg : String) : String :=
  pyStrip ⟨pkg.data.takeWhile (fun c => !pipSpecifierChar c)⟩

/-- `AppPermissions.check_pip_package`: strip both sides, then glob match. -/
def check_pip_package (pip : List String) (package : String) : Bool :=
  let base := pip_base_name package
  pip.any (fun allowed => fnmatchB base (pip_base_name allowed))

/-- `AppPermissions.check_url`: glob match against the `urls` allowlist. -/
def check_url (urls : List String) (url : String) : Bool :=
  urls.any (fun pat => fnmatchB url pat)

/-- `AppPermissions.check_service`: exact membership. -/
def check_service (services : List String) (service : String) : Bool :=
  services.contains service

/-- `AppPermissions.check_user`: exact membership. -/
def check_user (users : List String) (usr : String) : Bool :=
  users.contains usr

/-- `AppPermissions.check_command`: glob match against the `commands` allowlist. -/
def check_command (commands : List String) (cmd : String) : Bool :=
  commands.any (fun allowed => fnmatchB cmd allowed)

/-- `AppPermissions.check_installer_script`: glob match against `urls`, falling
back to exact membership in the legacy `installer_scripts` list. -/
def check_installer_script (urls installer_scripts : List String) (url : String) : Bool :=
  urls.any (fun pat => fnmatchB url pat) || installer_scripts.contains url

/-- `AppPermissions._extract_repo_url`: first whitespace token starting with
`http://` or `https://`, with trailing slashes removed; `""` when none. -/
def extract_repo_url (line : String) : String :=
  match (pySplitWs line).find? (fun t => startsWithL t "http://" || startsWithL t "https://") with
  | some t => rstripSlashes t
  | none => ""

/-- Whitespace normalization `" ".join(line.split())`. -/
def normalizeWs (s : String) : String := String.intercalate " " (pySplitWs s)

/-- `AppPermissions.check_apt_repo`: URL-based match (equality, "/"-descendant or
glob) with a legacy whitespace-normalized full-line fallback. -/
def check_apt_repo (apt_repos : List String) (repo_line : String) : Bool :=
  let repo_url := extract_repo_url repo_line
  apt_repos.any (fun allowed =>
    let allowed_clean := rstripSlashes allowed
    ((repo_url != "") && (repo_url == allowed_clean
        || startsWithL repo_url (allowed_clean ++ "/")
        || fnmatchB repo_url allowed_clean))
    || normalizeWs repo_line == normalizeWs allowed)

/-! ## POSIX path normalization (`os.path.normpath`) and `check_path` -/

/-- Python `str.split('/')` on the character list. -/
def splitOnSlash : List Char → List (List Char)
  | [] => [[]]
  | c :: rest =>
    if c = '/' then [] :: splitOnSlash rest
    else
      match splitOnSlash rest with
      | [] => [[c]]
      | g :: gs => (c :: g) :: gs

/-- The component loop of `posixpath.normpath`: drop empty and `"."` components,
let `".."` cancel a previous component, keep leading `".."`s of relative paths,
drop `".."` at an absolute root.  `acc` is the processed list, reversed. -/
def normCompsAux (isAbs : Bool) : List (List Char) → List (List Char) → List (List Char)
  | acc, [] => acc.reverse
  | acc, c :: rest =>
    if c = [] ∨ c = ['.'] then normCompsAux isAbs acc rest
    else if c ≠ ['.', '.'] ∨ (¬ isAbs ∧ acc = []) ∨ acc.head? = some ['.', '.'] then
      normCompsAux isAbs (c :: acc) rest
    else
      normCompsAux isAbs acc.tail rest

def normComps (isAbs : Bool) (comps : List (List Char)) : List (List Char) :=
  normCompsAux isAbs [] comps

/-- `'/'.join(comps)` on character lists. -/
def joinComps : List (List Char) → List Char
  | [] => []
  | [c] => c
  | c :: rest => c ++ '/' :: joinComps rest

/-- `posixpath.normpath` on a character list: empty path is `"."`; one leading
slash is kept, exactly two leading slashes are kept as two, three or more
collapse to one; the components are normalized and rejoined. -/
def normpathL (p : List Char) : List Char :=
  if p = [] then ['.']
  else
    let slashes : Nat :=
      if p.head? = some '/' then
        if p.take 2 = ['/', '/'] ∧ p.take 3 ≠ ['/', '/', '/'] then 2 else 1
      else 0
    let comps := normComps (slashes ≠ 0) (splitOnSlash p)
    let out := List.replicate slashes '/' ++ joinComps comps
    if out = [] then ['.'] else out

/-- `os.path.normpath` on strings. -/
def normpath (s : String) : String := ⟨normpathL s.data⟩

/-- The scratch prefixes implicitly allowed by `check_path` (no manifest entry needed). -/
def implicit_paths : List String := ["/tmp", "/opt/venv"]

/-- `AppPermissions.check_path`: normalize the candidate, and for each implicit or
declared entry (itself normalized) accept on a bare `"/"` entry when the
normalized candidate is absolute, or on equality, or on a `"/"`-separated prefix. -/
def check_path (paths : List String) (path : String) : Bool :=
  let normalized := normpath path
  (implicit_paths ++ paths).any (fun allowed =>
    let allowed_norm := normpath allowed
    if allowed_norm == "/" then startsWithL normalized "/"
    else normalized == allowed_norm || startsWithL normalized (allowed_norm ++ "/"))

/-! ## Structural facts about `normpathL`, needed to compare `check_path`
with the specification's "equal or strict descendant" reading -/

/-! ## Structural facts about `normpathL`, needed to compare `check_path`
with the specification's "equal or strict descendant" reading -/

theorem splitOnSlash_ne_nil (l : List Char) : splitOnSlash l ≠ [] := by
  cases l with
  | nil => simp [splitOnSlash]
  | cons c rest =>
    simp only [splitOnSlash]
    split
    · simp
    · split <;> simp

theorem splitOnSlash_no_slash (l : List Char) :
    ∀ part ∈ splitOnSlash l, '/' ∉ part := by
  induction l with
  | nil =>
    intro part hp
    simp only [splitOnSlash, List.mem_singleton] at hp
    simp [hp]
  | cons c rest ih =>
    intro part hp
    simp only [splitOnSlash] at hp
    split at hp
    · rename_i hc
      rcases List.mem_cons.mp hp with rfl | hp
      · simp
      · exact ih part hp
    · rename_i hc
      split at hp
      · rename_i hsplit
        exact absurd hsplit (splitOnSlash_ne_nil rest)
      · rename_i g gs hsplit
        rcases List.mem_cons.mp hp with rfl | hp
        · intro hmem
          rcases List.mem_cons.mp hmem with h | h
          · exact hc h.symm
          · exact ih g (hsplit ▸ List.mem_cons_self g gs) h
        · exact ih part (hsplit ▸ List.mem_cons_of_mem g hp)

theorem normCompsAux_inv (isAbs : Bool) (comps : List (List Char)) :
    ∀ acc : List (List Char),
      (∀ x ∈ acc, x ≠ [] ∧ '/' ∉ x) →
      (∀ part ∈ comps, '/' ∉ part) →
      ∀ x ∈ normCompsAux isAbs acc comps, x ≠ [] ∧ '/' ∉ x := by
  induction comps with
  | nil =>
    intro acc hacc _ x hx
    simp only [normCompsAux, List.mem_reverse] at hx
    exact hacc x hx
  | cons c rest ih =>
    intro acc hacc hcomps x hx
    have hcrest : ∀ part ∈ rest, '/' ∉ part := fun p hp =>
      hcomps p (List.mem_cons_of_mem c hp)
    have hcslash : '/' ∉ c := hcomps c (List.mem_cons_self c rest)
    simp only [normCompsAux] at hx
    split at hx
    · exact ih acc hacc hcrest x hx
    · rename_i hskip
      split at hx
      · refine ih (c :: acc) ?_ hcrest x hx
        intro y hy
        rcases List.mem_cons.mp hy with rfl | hy
        · exact ⟨fun hnil => hskip (Or.inl hnil), hcslash⟩
        · exact hacc y hy
      · refine ih acc.tail ?_ hcrest x hx
        intro y hy
        exact hacc y (List.mem_of_mem_tail hy)

theorem joinComps_ne_nil (comps : List (List Char)) (hne : comps ≠ [])
    (hcs : ∀ x ∈ comps, x ≠ [] ∧ '/' ∉ x) : joinComps comps ≠ [] := by
  match comps with
  | [] => exact absurd rfl hne
  | [c] =>
    simpa [joinComps] using (hcs c (List.mem_cons_self c [])).1
  | c :: d :: rest =>
    have h1 := (hcs c (List.mem_cons_self c (d :: rest))).1
    simp only [joinComps]
    intro h
    rcases List.append_eq_nil.mp h with ⟨h2, _⟩
    exact h1 h2

theorem joinComps_getLast?_ne_slash (comps : List (List Char))
    (hcs : ∀ x ∈ comps, x ≠ [] ∧ '/' ∉ x) :
    (joinComps comps).getLast? ≠ some '/' := by
  match comps with
  | [] => simp [joinComps]
  | [c] =>
    simp only [joinComps]
    intro h
    exact (hcs c (List.mem_cons_self c [])).2 (List.mem_of_mem_getLast? h)
  | c :: d :: rest =>
    have htail : ∀ x ∈ d :: rest, x ≠ [] ∧ '/' ∉ x := fun x hx =>
      hcs x (List.mem_cons_of_mem c hx)
    have hjtail : joinComps (d :: rest) ≠ [] :=
      joinComps_ne_nil (d :: rest) (by simp) htail
    have ih := joinComps_getLast?_ne_slash (d :: rest) htail
    obtain ⟨j, js, hj⟩ := List.exists_cons_of_ne_nil hjtail
    simp only [joinComps] at hj ⊢
    rw [List.getLast?_append_of_ne_nil c
      (show ('/' :: joinComps (d :: rest) : List Char) ≠ [] by simp), hj,
      List.getLast?_cons_cons]
    rw [hj] at ih
    exact ih

theorem joinComps_head?_ne_slash (comps : List (List Char))
    (hcs : ∀ x ∈ comps, x ≠ [] ∧ '/' ∉ x) :
    (joinComps comps).head? ≠ some '/' := by
  match comps with
  | [] => simp [joinComps]
  | [c] =>
    simp only [joinComps]
    intro h
    exact (hcs c (List.mem_cons_self c [])).2 (List.mem_of_mem_head? h)
  | c :: d :: rest =>
    have hc := hcs c (List.mem_cons_self c (d :: rest))
    obtain ⟨a, c', rfl⟩ := List.exists_cons_of_ne_nil hc.1
    simp only [joinComps, List.cons_append, List.head?_cons]
    intro h
    have ha : a = '/' := by injection h
    exact hc.2 (ha ▸ List.mem_cons_self a c')

theorem normComps_inv (isAbs : Bool) (p : List Char) :
    ∀ x ∈ normComps isAbs (splitOnSlash p), x ≠ [] ∧ '/' ∉ x :=
  normCompsAux_inv isAbs (splitOnSlash p) [] (by simp) (splitOnSlash_no_slash p)

theorem out_getLast?_slash (n : Nat) (hn : n ≤ 2) (comps : List (List Char))
    (hcs : ∀ x ∈ comps, x ≠ [] ∧ '/' ∉ x)
    (h : ((if List.replicate n '/' ++ joinComps comps = [] then ['.']
           else List.replicate n '/' ++ joinComps comps) : List Char).getLast? = some '/') :
    (if List.replicate n '/' ++ joinComps comps = [] then (['.'] : List Char)
     else List.replicate n '/' ++ joinComps comps) = ['/'] ∨
    (if List.replicate n '/' ++ joinComps comps = [] then (['.'] : List Char)
     else List.replicate n '/' ++ joinComps comps) = ['/', '/'] := by
  by_cases hj : joinComps comps = []
  · rw [hj] at h ⊢
    interval_cases n <;> simp_all
  · have hout : List.replicate n '/' ++ joinComps comps ≠ [] :=
      fun hne => hj (List.append_eq_nil.mp hne).2
    rw [if_neg hout] at h
    rw [List.getLast?_append_of_ne_nil _ hj] at h
    exact absurd h (joinComps_getLast?_ne_slash comps hcs)

theorem out_head?_slash (n : Nat) (comps : List (List Char))
    (hcs : ∀ x ∈ comps, x ≠ [] ∧ '/' ∉ x) :
    (((if List.replicate n '/' ++ joinComps comps = [] then (['.'] : List Char)
       else List.replicate n '/' ++ joinComps comps)).head? = some '/') ↔ n ≠ 0 := by
  cases n with
  | zero =>
    simp only [List.replicate, List.nil_append]
    by_cases hj : joinComps comps = []
    · simp [hj]
    · rw [if_neg hj]
      simpa using joinComps_head?_ne_slash comps hcs
  | succ m =>
    have hout : List.replicate (m + 1) '/' ++ joinComps comps ≠ [] := by
      simp [List.replicate]
    rw [if_neg hout]
    simp [List.replicate]

/-- For a nonempty input, `normpathL` produces `replicate slashes '/' ++ joined
components` (or `"."` when that is empty), with well-formed components and the
slash count reflecting absoluteness of the input. -/
theorem normpathL_eq_out (p : List Char) (hp : p ≠ []) :
    ∃ n comps, n ≤ 2 ∧ (∀ x ∈ comps, x ≠ [] ∧ '/' ∉ x) ∧ (n ≠ 0 ↔ p.head? = some '/') ∧
      normpathL p = (if List.replicate n '/' ++ joinComps comps = [] then ['.']
                     else List.replicate n '/' ++ joinComps comps) := by
  refine ⟨(if p.head? = some '/' then
      if p.take 2 = ['/', '/'] ∧ p.take 3 ≠ ['/', '/', '/'] then 2 else 1
    else 0),
    normComps (decide ((if p.head? = some '/' then
      if p.take 2 = ['/', '/'] ∧ p.take 3 ≠ ['/', '/', '/'] then 2 else 1
    else 0) ≠ 0)) (splitOnSlash p), ?_, ?_, ?_, ?_⟩
  · split
    · split <;> omega
    · omega
  · exact normComps_inv _ p
  · by_cases habs : p.head? = some '/'
    · simp only [habs, if_pos]
      split <;> simp [habs]
    · simp [habs]
  · unfold normpathL
    rw [if_neg hp]

theorem normpathL_ne_nil (p : List Char) : normpathL p ≠ [] := by
  by_cases hp : p = []
  · simp [normpathL, hp]
  · obtain ⟨n, comps, _, _, _, heq⟩ := normpathL_eq_out p hp
    rw [heq]
    split
    · simp
    · rename_i h2
      exact h2

theorem normpathL_getLast?_slash (p : List Char)
    (h : (normpathL p).getLast? = some '/') :
    normpathL p = ['/'] ∨ normpathL p = ['/', '/'] := by
  by_cases hp : p = []
  · rw [hp] at h
    simp [normpathL] at h
  · obtain ⟨n, comps, hn, hcs, _, heq⟩ := normpathL_eq_out p hp
    rw [heq] at h ⊢
    exact out_getLast?_slash n hn comps hcs h

theorem normpathL_head?_slash (p : List Char) :
    (normpathL p).head? = some '/' ↔ p.head? = some '/' := by
  by_cases hp : p = []
  · simp [normpathL, hp]
  · obtain ⟨n, comps, _, hcs, hiff, heq⟩ := normpathL_eq_out p hp
    rw [heq, out_head?_slash n comps hcs]
    exact hiff

theorem string_eq_iff_data (s t : String) : s = t ↔ s.data = t.data := by
  constructor
  · intro h
    rw [h]
  · intro h
    cases s with
    | mk d1 =>
      cases t with
      | mk d2 => exact congrArg String.mk h

theorem singleton_prefix_head (c : Char) (l : List Char) : [c] <+: l ↔ l.head? = some c := by
  cases l with
  | nil => simp
  | cons d t =>
    rw [List.cons_prefix_cons]
    simp [eq_comm]

/-! ## Claim C1: specification-side reading of `check_path` -/

/-- The specification's notion of an absolute path. -/
def isAbsoluteL (p : String) : Prop := p.data.head? = some '/'

/-- Modelling the claim's acceptance condition: the normalized candidate is equal
to, or a strict `/`-separated descendant of, some (normalized) entry of the union
of the scratch directories and the declared prefixes; a bare `/` entry admits
every absolute path. -/
def spec_path_allowed (paths : List String) (p : String) : Prop :=
  ∃ a ∈ implicit_paths ++ paths,
    (normpath a = "/" ∧ isAbsoluteL p)
    ∨ normpath p = normpath a
    ∨ (∃ rest : List Char, rest ≠ [] ∧ (normpath p).data = (normpath a).data ++ '/' :: rest)

theorem check_path_entry_iff (a p : String) :
    ((if normpath a == "/" then startsWithL (normpath p) "/"
      else normpath p == normpath a || startsWithL (normpath p) (normpath a ++ "/")) = true)
    ↔ ((normpath a = "/" ∧ isAbsoluteL p)
       ∨ normpath p = normpath a
       ∨ (∃ rest : List Char, rest ≠ [] ∧
            (normpath p).data = (normpath a).data ++ '/' :: rest)) := by
  have hdata : ∀ s : String, (normpath s).data = normpathL s.data := fun _ => rfl
  by_cases ha : normpath a = "/"
  · rw [if_pos (beq_iff_eq.mpr ha)]
    have habs : startsWithL (normpath p) "/" = true ↔ isAbsoluteL p := by
      rw [startsWithL, List.isPrefixOf_iff_prefix]
      show ['/'] <+: (normpath p).data ↔ _
      rw [singleton_prefix_head, hdata, normpathL_head?_slash]
      exact Iff.rfl
    rw [habs]
    constructor
    · intro h
      exact Or.inl ⟨ha, h⟩
    · rintro (⟨_, h⟩ | h | ⟨rest, _, h⟩)
      · exact h
      · show p.data.head? = some '/'
        rw [← normpathL_head?_slash p.data, ← hdata, h, ha]
        rfl
      · show p.data.head? = some '/'
        rw [← normpathL_head?_slash p.data, ← hdata, h, ha]
        rfl
  · rw [if_neg (by simpa using ha)]
    have hpfx : startsWithL (normpath p) (normpath a ++ "/") = true
        ↔ (normpath a).data ++ ['/'] <+: (normpath p).data := by
      rw [startsWithL, List.isPrefixOf_iff_prefix]
      have : (normpath a ++ "/").data = (normpath a).data ++ ['/'] := by
        cases h : normpath a
        rfl
      rw [this]
    constructor
    · intro h
      rcases Bool.or_eq_true_iff.mp h with h | h
      · exact Or.inr (Or.inl (beq_iff_eq.mp h))
      · obtain ⟨t, ht⟩ := hpfx.mp h
        cases t with
        | nil =>
          exfalso
          have hA : (normpath a).data ++ ['/'] = (normpath p).data := by
            simpa using ht
          have hlast : (normpath p).data.getLast? = some '/' := by
            rw [← hA]
            exact List.getLast?_append_of_ne_nil _ (by simp)
          rcases normpathL_getLast?_slash p.data (by rw [← hdata]; exact hlast) with hq | hq
          · have h2 : (normpath a).data ++ ['/'] = ['/'] := by
              rw [hA, hdata, hq]
            have h3 : (normpath a).data = [] := by simpa using h2
            exact normpathL_ne_nil a.data (by rw [← hdata]; exact h3)
          · have h2 : (normpath a).data ++ ['/'] = ['/', '/'] := by
              rw [hA, hdata, hq]
            have h3 : (normpath a).data = ['/'] := by
              have := congrArg (List.dropLast) h2
              simpa using this
            exact ha ((string_eq_iff_data _ _).mpr h3)
        | cons r rs =>
          refine Or.inr (Or.inr ⟨r :: rs, by simp, ?_⟩)
          rw [← ht]
          simp
    · rintro (⟨h, _⟩ | h | ⟨rest, hne, h⟩)
      · exact absurd h ha
      · exact Bool.or_eq_true_iff.mpr (Or.inl (beq_iff_eq.mpr h))
      · refine Bool.or_eq_true_iff.mpr (Or.inr (hpfx.mpr ⟨rest, ?_⟩))
        rw [h]
        simp

/-- Claim C1: `check_path` succeeds exactly when the normalized candidate equals,
or is a strict `/`-separated descendant of, a (normalized) entry of the union of
the implicit scratch directories and the declared prefixes, a bare `/` entry
admitting every absolute path; in particular `/opt/app/sub/file` is accepted and
`/opt/app2/file` rejected when exactly `/opt/app` is declared. -/
theorem check_path_matches_spec :
    (∀ paths p, check_path paths p = true ↔ spec_path_allowed paths p)
    ∧ check_path ["/opt/app"] "/opt/app/sub/file" = true
    ∧ check_path ["/opt/app"] "/opt/app2/file" = false := by
  refine ⟨fun paths p => ?_, by decide, by decide⟩
  simp only [check_path]
  rw [List.any_eq_true]
  constructor
  · rintro ⟨a, ha, hcode⟩
    exact ⟨a, ha, (check_path_entry_iff a p).mp hcode⟩
  · rintro ⟨a, ha, hspec⟩
    exact ⟨a, ha, (check_path_entry_iff a p).mpr hspec⟩

/-! ## Claims C3 and C2: pip stripping and deny-by-default -/

theorem mem_pip_base_name (pkg : String) :
    ∀ c ∈ (pip_base_name pkg).data, pipSpecifierChar c = false := by
  intro c hc
  have h1 : c ∈ pkg.data.takeWhile (fun c => !pipSpecifierChar c) := by
    have h2 : c ∈ ((pkg.data.takeWhile (fun c => !pipSpecifierChar c)).dropWhile
        isPySpace).reverse.dropWhile isPySpace := by
      simpa [pip_base_name, pyStrip] using hc
    have h3 := (List.dropWhile_sublist isPySpace).mem h2
    have h4 := List.mem_reverse.mp h3
    exact (List.dropWhile_sublist isPySpace).mem h4
  have := List.mem_takeWhile_imp h1
  simpa using this

/-- Claim C3: `check_pip_package` glob-matches the candidate against each entry
after both are stripped at the first specifier character (the base never contains
a specifier character), so `"foo<2"` matches allowlisted `"foo"` while
`"foo-bar"` does not. -/
theorem check_pip_package_strips_specifiers :
    (∀ pip pkg, check_pip_package pip pkg = true ↔
       ∃ a ∈ pip, fnmatchB (pip_base_name pkg) (pip_base_name a) = true)
    ∧ (∀ pkg, ∀ c ∈ (pip_base_name pkg).data, pipSpecifierChar c = false)
    ∧ pip_base_name "foo<2" = "foo"
    ∧ pip_base_name "foo-bar" = "foo-bar"
    ∧ check_pip_package ["foo"] "foo<2" = true
    ∧ check_pip_package ["foo"] "foo-bar" = false := by
  refine ⟨fun pip pkg => ?_, mem_pip_base_name, by decide, by decide, by decide, by decide⟩
  simp only [check_pip_package]
  rw [List.any_eq_true]

/-- Claim C2 counterexample: a gate constructed with every allowlist empty
(`paths = []`) still accepts the path `"/tmp/x"`, because the fixed scratch
directories are implicitly allowed; so not every `check_path` call fails. -/
theorem empty_allowlist_check_path_accepts_tmp : check_path [] "/tmp/x" = true := by decide

/-- Claim C2 (amended): with an absent or empty allowlist, every check of
`check_package`, `check_pip_package`, `check_url`, `check_service`,
`check_user`, `check_command`, `check_installer_script` and `check_apt_repo`
fails for every candidate; `check_path` with no declared prefixes accepts
exactly the paths whose normalized form equals or strictly descends from one of
the implicit scratch directories `/tmp` and `/opt/venv`. -/
theorem deny_by_default_except_scratch :
    (∀ x, check_package [] x = false)
    ∧ (∀ x, check_pip_package [] x = false)
    ∧ (∀ x, check_url [] x = false)
    ∧ (∀ x, check_service [] x = false)
    ∧ (∀ x, check_user [] x = false)
    ∧ (∀ x, check_command [] x = false)
    ∧ (∀ x, check_installer_script [] [] x = false)
    ∧ (∀ x, check_apt_repo [] x = false)
    ∧ (∀ p, check_path [] p = true ↔
        (normpath p = "/tmp"
         ∨ (∃ r : List Char, r ≠ [] ∧ (normpath p).data = "/tmp".data ++ '/' :: r)
         ∨ normpath p = "/opt/venv"
         ∨ (∃ r : List Char, r ≠ [] ∧ (normpath p).data = "/opt/venv".data ++ '/' :: r))) := by
  refine ⟨fun _ => rfl, fun _ => rfl, fun _ => rfl, fun _ => rfl, fun _ => rfl,
    fun _ => rfl, fun _ => rfl, fun _ => rfl, fun p => ?_⟩
  have h1 := check_path_entry_iff "/tmp" p
  have h2 := check_path_entry_iff "/opt/venv" p
  have e1 : normpath "/tmp" = "/tmp" := rfl
  have e2 : normpath "/opt/venv" = "/opt/venv" := rfl
  rw [e1] at h1
  rw [e2] at h2
  have hne1 : ("/tmp" : String) ≠ "/" := by decide
  have hne2 : ("/opt/venv" : String) ≠ "/" := by decide
  have hsplit : check_path [] p = true ↔
      ((if normpath "/tmp" == "/" then startsWithL (normpath p) "/"
        else normpath p == normpath "/tmp"
          || startsWithL (normpath p) (normpath "/tmp" ++ "/")) = true
       ∨ (if normpath "/opt/venv" == "/" then startsWithL (normpath p) "/"
        else normpath p == normpath "/opt/venv"
          || startsWithL (normpath p) (normpath "/opt/venv" ++ "/")) = true) := by
    simp only [check_path, implicit_paths, List.append_nil, List.any_cons, List.any_nil,
      Bool.or_false, Bool.or_eq_true_iff]
  rw [hsplit, e1, e2, h1, h2]
  constructor
  · rintro (h | h)
    · rcases h with ⟨hbad, _⟩ | h | ⟨r, hr1, hr2⟩
      · exact absurd hbad hne1
      · exact Or.inl h
      · exact Or.inr (Or.inl ⟨r, hr1, hr2⟩)
    · rcases h with ⟨hbad, _⟩ | h | ⟨r, hr1, hr2⟩
      · exact absurd hbad hne2
      · exact Or.inr (Or.inr (Or.inl h))
      · exact Or.inr (Or.inr (Or.inr ⟨r, hr1, hr2⟩))
  · rintro (h | ⟨r, hr1, hr2⟩ | h | ⟨r, hr1, hr2⟩)
    · exact Or.inl (Or.inr (Or.inl h))
    · exact Or.inl (Or.inr (Or.inr ⟨r, hr1, hr2⟩))
    · exact Or.inr (Or.inr (Or.inl h))
    · exact Or.inr (Or.inr (Or.inr ⟨r, hr1, hr2⟩))

/-! ## Script auditor (`appstore/analyze_script.py`)

The Python `ast` node kinds the analyzer inspects are embedded as `Expr`/`Stmt`.
`ast.NodeVisitor` performs a pre-order walk, running each `visit_*` action at a
node before its children; the embedding flattens the walk into a list of
`Event`s (the per-node data each action consumes) and folds the analyzer state
over it.  The write-only `_in_class` flag is omitted: it is never read. -/

/-- An atomic Python constant (`ast.Constant`). -/
inductive PyConst where
  | none
  | bool (b : Bool)
  | int (n : Int)
  | str (s : String)
deriving DecidableEq

/-- A value recorded by the auditor: a literal, list, or string-keyed dict.
The dynamic marker is literally the string `"<dynamic>"`, as in the source. -/
inductive PyLit where
  | none
  | bool (b : Bool)
  | int (n : Int)
  | str (s : String)
  | list (xs : List PyLit)
  | dict (xs : List (String × PyLit))

def dynamicMarker : PyLit := .str "<dynamic>"

inductive UnOp where
  | usub
  | otherOp
deriving DecidableEq

/-- Python expressions relevant to the analyzer (`line` is carried on calls,
the only nodes whose location is recorded). -/
inductive Expr where
  | const (c : PyConst)
  | name (id : String)
  | attr (value : Expr) (a : String)
  | listE (elts : List Expr)
  | tupleE (elts : List Expr)
  | dictE (entries : List (Option Expr × Expr))
  | unary (op : UnOp) (operand : Expr)
  | starred (e : Expr)
  | binop (l r : Expr)
  | call (f : Expr) (args : List Expr) (kwargs : List (Option String × Expr)) (line : Nat)

/-- Python statements relevant to the analyzer. -/
inductive Stmt where
  | importFromS (mod : Option String) (names : List String)
  | classDef (nm : String) (bases : List Expr) (body : List Stmt)
  | funcDef (nm : String) (body : List Stmt)
  | exprStmt (e : Expr)
  | assign (target : Expr) (value : Expr)
  | passStmt

def constLit : PyConst → PyLit
  | .none => .none
  | .bool b => .bool b
  | .int n => .int n
  | .str s => .str s

/-- Python dict assignment `d[k] = v`: overwrite in place or append. -/
def dictInsert (m : List (String × PyLit)) (k : String) (v : PyLit) :
    List (String × PyLit) :=
  if m.any (fun kv => kv.1 == k) then
    m.map (fun kv => if kv.1 == k then (k, v) else kv)
  else m ++ [(k, v)]

mutual
/-- `_resolve_value`: constants, lists/tuples, dicts with string-constant keys
and negated numerics resolve; everything else is the dynamic marker.  A negated
`bool` resolves as in Python, where `bool` is an `int` subtype. -/
def resolve_value : Expr → PyLit
  | .const c => constLit c
  | .listE elts => .list (resolveList elts)
  | .tupleE elts => .list (resolveList elts)
  | .dictE entries => .dict (resolveDict [] entries)
  | .unary .usub e =>
    match resolve_value e with
    | .int n => .int (-n)
    | .bool b => .int (if b then -1 else 0)
    | _ => dynamicMarker
  | _ => dynamicMarker

def resolveList : List Expr → List PyLit
  | [] => []
  | e :: rest => resolve_value e :: resolveList rest

def resolveDict (acc : List (String × PyLit)) :
    List (Option Expr × Expr) → List (String × PyLit)
  | [] => acc
  | (k?, v) :: rest =>
    match (match k? with
           | some k => resolve_value k
           | Option.none => dynamicMarker) with
    | .str s => resolveDict (dictInsert acc s (resolve_value v)) rest
    | _ => resolveDict acc rest
end

structure InputRec where
  key : String
  line : Nat
  type : String
deriving DecidableEq

structure MethodRec where
  method : String
  line : Nat
  args : List PyLit
  kwargs : List (String × PyLit)

structure UnsafeRec where
  line : Nat
  pat : String
deriving DecidableEq

/-- The data `visit_Call` consumes at one `Call` node. -/
structure CallData where
  runArg : Option String
  inputRec : Option InputRec
  methodRec : Option MethodRec
  unsafeRec : Option UnsafeRec

/-- One action point of the pre-order walk. -/
inductive Event where
  | importFromE (mod : Option String) (names : List String)
  | classDefE (nm : String) (isApp : Bool) (methods : List String)
  | callE (cd : CallData)

/-- The base-class name extraction in `visit_ClassDef`. -/
def baseNameOf : Expr → String
  | .name id => id
  | .attr _ a => a
  | _ => ""

/-- `run(ClassName)` detection: callee is the bare name `run` with a first
positional argument that is a bare name. -/
def callRunArg (f : Expr) (args : List Expr) : Option String :=
  match f, args with
  | .name "run", .name id :: _ => some id
  | _, _ => Option.none

/-- `self.inputs.<type>("key", ...)` detection, recorded when the first argument
resolves to a literal string other than the dynamic marker. -/
def callInputRec (f : Expr) (args : List Expr) (line : Nat) : Option InputRec :=
  match f with
  | .attr (.attr (.name "self") "inputs") t =>
    match args with
    | a :: _ =>
      match resolve_value a with
      | .str s => if s == "<dynamic>" then Option.none else some ⟨s, line, t⟩
      | _ => Option.none
    | [] => Option.none
  | _ => Option.none

/-- Positional argument resolution: starred arguments become the dynamic marker. -/
def resolveArg : Expr → PyLit
  | .starred _ => dynamicMarker
  | a => resolve_value a

/-- `self.<method>(...)` recording: positional args resolved in order, keyword
args with a name resolved into a dict, `**`-spreads (no name) skipped. -/
def callMethodRec (f : Expr) (args : List Expr) (kwargs : List (Option String × Expr))
    (line : Nat) : Option MethodRec :=
  match f with
  | .attr (.name "self") m =>
    some ⟨m, line, args.map resolveArg,
      kwargs.foldl (fun acc kv =>
        match kv.1 with
        | some n => dictInsert acc n (resolve_value kv.2)
        | Option.none => acc) []⟩
  | _ => Option.none

/-- `os.system` and `subprocess.{call,run,Popen,check_call,check_output}` flags. -/
def callUnsafeRec (f : Expr) (line : Nat) : Option UnsafeRec :=
  match f with
  | .attr (.name "os") "system" => some ⟨line, "os.system"⟩
  | .attr (.name "subprocess") a =>
    if a == "call" || a == "run" || a == "Popen" || a == "check_call" || a == "check_output"
    then some ⟨line, "subprocess." ++ a⟩ else Option.none
  | _ => Option.none

/-- Function names defined directly in a class body (`visit_ClassDef`'s scan). -/
def directMethods (body : List Stmt) : List String :=
  body.filterMap (fun s =>
    match s with
    | .funcDef n _ => some n
    | _ => Option.none)

mutual
/-- Pre-order event walk, mirroring `ast.NodeVisitor.generic_visit` field order
(`Call`: func, args, keywords; `ClassDef`: bases then body; `Dict`: all keys
then all values; `Assign`: targets then value). -/
def walkExpr : Expr → List Event
  | .const _ => []
  | .name _ => []
  | .attr v _ => walkExpr v
  | .listE es => walkExprs es
  | .tupleE es => walkExprs es
  | .dictE entries => walkDictKeys entries ++ walkDictVals entries
  | .unary _ e => walkExpr e
  | .starred e => walkExpr e
  | .binop l r => walkExpr l ++ walkExpr r
  | .call f args kwargs line =>
    .callE ⟨callRunArg f args, callInputRec f args line,
      callMethodRec f args kwargs line, callUnsafeRec f line⟩
      :: (walkExpr f ++ walkExprs args ++ walkKwVals kwargs)

def walkExprs : List Expr → List Event
  | [] => []
  | e :: rest => walkExpr e ++ walkExprs rest

def walkDictKeys : List (Option Expr × Expr) → List Event
  | [] => []
  | (some k, _) :: rest => walkExpr k ++ walkDictKeys rest
  | (Option.none, _) :: rest => walkDictKeys rest

def walkDictVals : List (Option Expr × Expr) → List Event
  | [] => []
  | (_, v) :: rest => walkExpr v ++ walkDictVals rest

def walkKwVals : List (Option String × Expr) → List Event
  | [] => []
  | (_, v) :: rest => walkExpr v ++ walkKwVals rest

def walkStmt : Stmt → List Event
  | .importFromS mod names => [.importFromE mod names]
  | .classDef nm bases body =>
    .classDefE nm (bases.any (fun b => baseNameOf b == "BaseApp")) (directMethods body)
      :: (walkExprs bases ++ walkStmts body)
  | .funcDef _ body => walkStmts body
  | .exprStmt e => walkExpr e
  | .assign target value => walkExpr target ++ walkExpr value
  | .passStmt => []

def walkStmts : List Stmt → List Event
  | [] => []
  | s :: rest => walkStmt s ++ walkStmts rest
end

/-- The analyzer's result record; during the walk it is also the mutable state
of `ScriptAnalyzer` (with `error` untouched). -/
structure FactSheet where
  imports : List String
  class_name : String
  has_install_method : Bool
  has_run_call : Bool
  input_keys : List InputRec
  method_calls : List MethodRec
  unsafe_patterns : List UnsafeRec
  defined_methods : List String
  error : Option String

/-- One visitor action: `visit_ImportFrom`, the `BaseApp` branch of
`visit_ClassDef`, or the four checks of `visit_Call` in source order. -/
def applyEvent (st : FactSheet) : Event → FactSheet
  | .importFromE mod names =>
    if mod == some "appstore" then { st with imports := st.imports ++ names } else st
  | .classDefE nm isApp methods =>
    if isApp then
      { st with class_name := nm,
                has_install_method := st.has_install_method || methods.contains "install",
                defined_methods := st.defined_methods ++ methods }
    else st
  | .callE cd =>
    let st1 := match cd.runArg with
      | some id => if id == st.class_name then { st with has_run_call := true } else st
      | Option.none => st
    let st2 := match cd.inputRec with
      | some r => { st1 with input_keys := st1.input_keys ++ [r] }
      | Option.none => st1
    let st3 := match cd.methodRec with
      | some r => { st2 with method_calls := st2.method_calls ++ [r] }
      | Option.none => st2
    match cd.unsafeRec with
    | some r => { st3 with unsafe_patterns := st3.unsafe_patterns ++ [r] }
    | Option.none => st3

def initSheet : FactSheet :=
  { imports := [], class_name := "", has_install_method := false, has_run_call := false,
    input_keys := [], method_calls := [], unsafe_patterns := [], defined_methods := [],
    error := Option.none }

structure SyntaxErr where
  msg : String
  lineno : Nat
deriving DecidableEq

/-- `analyze(source)`: parsing is done by the host language's parser, so its
outcome — a statement list or a syntax error with message and 1-based line — is
the input of the embedding.  On error, the zero-valued sheet with only `error`
set is returned; on success the analyzer folds over the walk. -/
def analyze : Except SyntaxErr (List Stmt) → FactSheet
  | .error e =>
    { initSheet with
        error := some ("SyntaxError: " ++ e.msg ++ " (line " ++ toString e.lineno ++ ")") }
  | .ok stmts => (walkStmts stmts).foldl applyEvent initSheet

/-! ## Fold characterizations of the analyzer state -/

/-- The `BaseApp`-derived class events of a walk, in visit order, with whether
each class directly defines `install`. -/
def appClassEvents (evs : List Event) : List (String × Bool) :=
  evs.filterMap (fun ev =>
    match ev with
    | .classDefE nm true methods => some (nm, methods.contains "install")
    | _ => Option.none)

/-- How one event updates the recorded class name. -/
def updateClassName (cn : String) : Event → String
  | .classDefE nm true _ => nm
  | _ => cn

/-- Whether one event is an app class directly defining `install`. -/
def evInstall : Event → Bool
  | .classDefE _ true ms => ms.contains "install"
  | _ => false

def runArgOf : Event → Option String
  | .callE cd => cd.runArg
  | _ => Option.none

/-- Whether some `run(C)` event fires along the walk, given the evolving
recorded class name. -/
def runFires (cn : String) : List Event → Bool
  | [] => false
  | ev :: rest => (runArgOf ev == some cn) || runFires (updateClassName cn ev) rest

theorem applyEvent_class_name (st : FactSheet) (ev : Event) :
    (applyEvent st ev).class_name = updateClassName st.class_name ev := by
  cases ev with
  | importFromE mod names =>
    simp only [applyEvent, updateClassName]
    split <;> rfl
  | classDefE nm isApp methods =>
    cases isApp <;> simp [applyEvent, updateClassName]
  | callE cd =>
    rcases cd with ⟨ra, ir, mr, ur⟩
    cases ra <;> cases ir <;> cases mr <;> cases ur <;>
      simp only [applyEvent, updateClassName] <;> split <;> rfl

theorem applyEvent_has_install (st : FactSheet) (ev : Event) :
    (applyEvent st ev).has_install_method = (st.has_install_method || evInstall ev) := by
  cases ev with
  | importFromE mod names =>
    simp only [applyEvent, evInstall]
    split <;> simp
  | classDefE nm isApp methods =>
    cases isApp <;> simp [applyEvent, evInstall]
  | callE cd =>
    rcases cd with ⟨ra, ir, mr, ur⟩
    cases ra <;> cases ir <;> cases mr <;> cases ur <;>
      simp only [applyEvent, evInstall] <;> (try split) <;> simp
  
theorem applyEvent_has_run (st : FactSheet) (ev : Event) :
    (applyEvent st ev).has_run_call
      = (st.has_run_call || (runArgOf ev == some st.class_name)) := by
  cases ev with
  | importFromE mod names =>
    simp only [applyEvent, runArgOf]
    split <;> simp
  | classDefE nm isApp methods =>
    cases isApp <;> simp [applyEvent, runArgOf]
  | callE cd =>
    rcases cd with ⟨ra, ir, mr, ur⟩
    cases ra with
    | none =>
      cases ir <;> cases mr <;> cases ur <;>
        simp [applyEvent, runArgOf]
    | some id =>
      cases ir <;> cases mr <;> cases ur <;>
        simp only [applyEvent, runArgOf] <;> split <;> rename_i hid <;> simp_all

theorem foldl_class_name (evs : List Event) :
    ∀ st : FactSheet,
      (evs.foldl applyEvent st).class_name = evs.foldl updateClassName st.class_name := by
  induction evs with
  | nil => intro st; rfl
  | cons ev rest ih =>
    intro st
    rw [List.foldl_cons, List.foldl_cons, ih, applyEvent_class_name]

theorem foldl_has_install (evs : List Event) :
    ∀ st : FactSheet,
      (evs.foldl applyEvent st).has_install_method
        = (st.has_install_method || evs.any evInstall) := by
  induction evs with
  | nil => intro st; simp
  | cons ev rest ih =>
    intro st
    rw [List.foldl_cons, ih, applyEvent_has_install, List.any_cons, Bool.or_assoc]

theorem foldl_has_run (evs : List Event) :
    ∀ st : FactSheet,
      (evs.foldl applyEvent st).has_run_call
        = (st.has_run_call || runFires st.class_name evs) := by
  induction evs with
  | nil => intro st; simp [runFires]
  | cons ev rest ih =>
    intro st
    rw [List.foldl_cons, ih, applyEvent_has_run, applyEvent_class_name, runFires,
      Bool.or_assoc]

theorem foldl_updateClassName_eq (evs : List Event) :
    ∀ dflt : String,
      evs.foldl updateClassName dflt
        = (((appClassEvents evs).getLast?).map Prod.fst).getD dflt := by
  induction evs with
  | nil => intro dflt; rfl
  | cons ev rest ih =>
    intro dflt
    rw [List.foldl_cons, ih]
    cases ev with
    | importFromE mod names => rfl
    | callE cd => rfl
    | classDefE nm isApp methods =>
      cases isApp with
      | false => rfl
      | true =>
        show (((appClassEvents rest).getLast?).map Prod.fst).getD nm
          = ((((nm, methods.contains "install") :: appClassEvents rest).getLast?).map
              Prod.fst).getD dflt
        match happs : appClassEvents rest with
        | [] => rfl
        | x :: xs =>
          rw [List.getLast?_cons_cons,
            List.getLast?_eq_getLast_of_ne_nil (show x :: xs ≠ [] by simp)]
          rfl

theorem any_evInstall_eq (evs : List Event) :
    evs.any evInstall = (appClassEvents evs).any Prod.snd := by
  induction evs with
  | nil => rfl
  | cons ev rest ih =>
    cases ev with
    | importFromE mod names => simpa [evInstall, appClassEvents] using ih
    | callE cd => simpa [evInstall, appClassEvents] using ih
    | classDefE nm isApp methods =>
      cases isApp with
      | false => simpa [evInstall, appClassEvents] using ih
      | true =>
        have hcons : appClassEvents (Event.classDefE nm true methods :: rest)
            = (nm, methods.contains "install") :: appClassEvents rest := rfl
        rw [List.any_cons, hcons, List.any_cons, ih]
        rfl

theorem runFires_append (a b : List Event) :
    ∀ cn, runFires cn (a ++ b)
      = (runFires cn a || runFires (a.foldl updateClassName cn) b) := by
  induction a with
  | nil => intro cn; simp [runFires]
  | cons ev rest ih =>
    intro cn
    rw [List.cons_append, runFires, runFires, ih, List.foldl_cons, Bool.or_assoc]

theorem runFires_of_no_run (evs : List Event)
    (h : evs.all (fun ev => (runArgOf ev).isNone) = true) :
    ∀ cn, runFires cn evs = false := by
  induction evs with
  | nil => intro cn; rfl
  | cons ev rest ih =>
    intro cn
    rw [List.all_cons, Bool.and_eq_true] at h
    rw [runFires]
    have hnone : runArgOf ev = Option.none := Option.isNone_iff_eq_none.mp h.1
    rw [hnone, ih h.2]
    rfl

theorem walkStmts_append (a b : List Stmt) :
    walkStmts (a ++ b) = walkStmts a ++ walkStmts b := by
  induction a with
  | nil => rfl
  | cons s rest ih =>
    show walkStmt s ++ walkStmts (rest ++ b) = (walkStmt s ++ walkStmts rest) ++ walkStmts b
    rw [ih, List.append_assoc]

/-! ## Claims C4, C5, C6, C10 -/

/-- Claim C4: for every parse failure, `analyze` returns a fact sheet whose
`error` holds the message and 1-based line number while every other field is at
its zero-value, and the error string is nonempty; `analyze` is total, so
nothing escapes the analyzer's boundary. -/
theorem analyze_parse_error_zero_sheet :
    (∀ e : SyntaxErr,
      analyze (.error e) =
        { imports := [], class_name := "", has_install_method := false,
          has_run_call := false, input_keys := [], method_calls := [],
          unsafe_patterns := [], defined_methods := [],
          error := some ("SyntaxError: " ++ e.msg ++ " (line " ++ toString e.lineno ++ ")") })
    ∧ (∀ e : SyntaxErr, ∀ s : String,
        (analyze (.error e)).error = some s → s ≠ "") := by
  refine ⟨fun e => rfl, fun e s hs => ?_⟩
  have hval : s = "SyntaxError: " ++ e.msg ++ " (line " ++ toString e.lineno ++ ")" := by
    have : (analyze (.error e)).error
        = some ("SyntaxError: " ++ e.msg ++ " (line " ++ toString e.lineno ++ ")") := rfl
    rw [this] at hs
    exact (Option.some.inj hs).symm
  subst hval
  intro h0
  have hlen := congrArg String.length h0
  simp only [String.length_append] at hlen
  have h13 : ("SyntaxError: " : String).length = 13 := rfl
  have hz : ("" : String).length = 0 := rfl
  rw [h13, hz] at hlen
  omega

/-- The closed witness for claim C4's zero-sheet behavior. -/
theorem analyze_parse_error_zero_sheet_witness :
    (analyze (.error ⟨"invalid syntax", 1⟩)).error = some "SyntaxError: invalid syntax (line 1)"
    ∧ (analyze (.error ⟨"invalid syntax", 1⟩)).class_name = ""
    ∧ (analyze (.error ⟨"invalid syntax", 1⟩)).method_calls = [] := ⟨rfl, rfl, rfl⟩

/-- A `self.configure(**opts)` call at line 4: the `**`-spread keyword argument. -/
def spreadCallScript : List Stmt :=
  [.exprStmt (.call (.attr (.name "self") "configure") [] [(Option.none, .name "opts")] 4)]

/-- Claim C5 counterexample: the call `self.configure(**opts)` is recorded with
empty `args` and empty `kwargs` — the spread keyword argument is silently
omitted, not recorded as the `"<dynamic>"` marker anywhere in the record. -/
theorem kwargs_spread_silently_omitted :
    (analyze (.ok spreadCallScript)).method_calls = [⟨"configure", 4, [], []⟩] := rfl

/-- Claim C5 (amended): constants, lists/tuples, string-keyed dict entries and
negated numerics resolve to literals; other expressions and starred positional
arguments resolve to the `"<dynamic>"` marker; list/tuple elements resolve
element-wise (a non-constant element becomes the marker inside the list); a
dict entry is kept whenever its resolved key is a string — in particular a
non-constant key resolves to the marker string and the entry is recorded under
the key `"<dynamic>"` — and dropped only when the key resolves to a non-string
literal; but a `**`-spread keyword argument is omitted from the recorded
kwargs entirely. -/
theorem resolve_value_amended :
    (∀ (m x : String) (line : Nat),
      (analyze (.ok [.exprStmt (.call (.attr (.name "self") m) []
        [(Option.none, .name x)] line)])).method_calls = [⟨m, line, [], []⟩])
    ∧ (∀ (m x : String) (line : Nat),
      (analyze (.ok [.exprStmt (.call (.attr (.name "self") m)
        [.starred (.name x)] [] line)])).method_calls = [⟨m, line, [dynamicMarker], []⟩])
    ∧ (∀ (m x v : String) (line : Nat),
      (analyze (.ok [.exprStmt (.call (.attr (.name "self") m) []
        [(some x, .name v)] line)])).method_calls = [⟨m, line, [], [(x, dynamicMarker)]⟩])
    ∧ (∀ c : PyConst, resolve_value (.const c) = constLit c)
    ∧ resolve_value (.name "y") = dynamicMarker
    ∧ resolve_value (.binop (.name "a") (.const (.int 1))) = dynamicMarker
    ∧ resolve_value (.listE [.const (.int 1), .name "y"]) = .list [.int 1, dynamicMarker]
    ∧ resolve_value (.dictE [(some (.const (.str "k")), .const (.int 3)),
        (some (.const (.int 4)), .const (.int 5))]) = .dict [("k", .int 3)]
    ∧ resolve_value (.dictE [(some (.name "x"), .const (.int 1))])
        = .dict [("<dynamic>", .int 1)]
    ∧ resolve_value (.dictE [(Option.none, .name "d")])
        = .dict [("<dynamic>", dynamicMarker)]
    ∧ resolve_value (.unary .usub (.const (.int 2))) = .int (-2)
    ∧ resolve_value (.unary .usub (.const (.str "a"))) = dynamicMarker :=
  ⟨fun _ _ _ => rfl, fun _ _ _ => rfl, fun _ _ _ _ => rfl, fun _ => rfl,
   rfl, rfl, rfl, rfl, rfl, rfl, rfl, rfl⟩

/-- Two `BaseApp` subclasses: the first (`A`) without `install`, the second
(`B`) with it. -/
def twoAppScript : List Stmt :=
  [ .classDef "A" [.name "BaseApp"] [.funcDef "helper" []],
    .classDef "B" [.name "BaseApp"] [.funcDef "install" []] ]

/-- Claim C6 counterexample: with two `BaseApp` subclasses the first of which
(`A`) defines no `install`, the fact sheet reports the *second* class's name
`B` and `has_install_method = true`, not the first class's name and `false`. -/
theorem multiple_baseapp_last_class_wins :
    (appClassEvents (walkStmts twoAppScript)).head? = some ("A", false)
    ∧ (analyze (.ok twoAppScript)).class_name = "B"
    ∧ (analyze (.ok twoAppScript)).has_install_method = true
    ∧ ("B" : String) ≠ "A" := ⟨rfl, rfl, rfl, by decide⟩

/-- Claim C6 (amended): the fact sheet's `class_name` is the name of the *last*
`BaseApp`-derived class in the walk, and `has_install_method` is true exactly
when *any* `BaseApp`-derived class in the walk directly defines `install`. -/
theorem class_name_last_and_install_any (stmts : List Stmt) :
    (analyze (.ok stmts)).class_name
      = (((appClassEvents (walkStmts stmts)).getLast?).map Prod.fst).getD ""
    ∧ (analyze (.ok stmts)).has_install_method
      = (appClassEvents (walkStmts stmts)).any Prod.snd := by
  constructor
  · show ((walkStmts stmts).foldl applyEvent initSheet).class_name = _
    rw [foldl_class_name, foldl_updateClassName_eq]
    rfl
  · show ((walkStmts stmts).foldl applyEvent initSheet).has_install_method = _
    rw [foldl_has_install, any_evInstall_eq]
    rfl

/-- Claim C10: registration detection is order-sensitive.  If no event of the
prefix is a `run(...)` call and the class name recorded after the prefix is not
`X`, a `run(X)` call there leaves `has_run_call` false even when `class X` is
defined later; conversely, when the prefix's recorded class name is `X`, the
same call sets `has_run_call`. -/
theorem run_registration_order_sensitive :
    (∀ (pre post : List Stmt) (X : String) (line : Nat),
       ((walkStmts pre).all (fun ev => (runArgOf ev).isNone)) = true →
       ((walkStmts post).all (fun ev => (runArgOf ev).isNone)) = true →
       ((walkStmts pre).foldl updateClassName "") ≠ X →
       (analyze (.ok (pre ++ .exprStmt (.call (.name "run") [.name X] [] line) :: post))).has_run_call
         = false)
    ∧ (∀ (pre post : List Stmt) (X : String) (line : Nat),
       ((walkStmts pre).foldl updateClassName "") = X →
       (analyze (.ok (pre ++ .exprStmt (.call (.name "run") [.name X] [] line) :: post))).has_run_call
         = true) := by
  have hsplitEvents : ∀ (pre post : List Stmt) (X : String) (line : Nat),
      walkStmts (pre ++ .exprStmt (.call (.name "run") [.name X] [] line) :: post)
        = walkStmts pre
          ++ (Event.callE ⟨some X, Option.none, Option.none, Option.none⟩ :: walkStmts post) := by
    intro pre post X line
    have hcons : (Stmt.exprStmt (.call (.name "run") [.name X] [] line)) :: post
        = [Stmt.exprStmt (.call (.name "run") [.name X] [] line)] ++ post := rfl
    rw [hcons, walkStmts_append, walkStmts_append]
    rfl
  have hrfc : ∀ (cn : String) (ev : Event) (rest : List Event),
      runFires cn (ev :: rest)
        = ((runArgOf ev == some cn) || runFires (updateClassName cn ev) rest) :=
    fun _ _ _ => rfl
  have hbody : ∀ (pre post : List Stmt) (X : String) (line : Nat),
      (analyze (.ok (pre ++ .exprStmt (.call (.name "run") [.name X] [] line) :: post))).has_run_call
        = (runFires "" (walkStmts pre)
           || runFires ((walkStmts pre).foldl updateClassName "")
                (Event.callE ⟨some X, Option.none, Option.none, Option.none⟩
                  :: walkStmts post)) := by
    intro pre post X line
    show ((walkStmts (pre ++ _ :: post)).foldl applyEvent initSheet).has_run_call = _
    rw [foldl_has_run, hsplitEvents pre post X line, runFires_append]
    rfl
  constructor
  · intro pre post X line hpre hpost hne
    rw [hbody pre post X line, runFires_of_no_run _ hpre, Bool.false_or, hrfc]
    have hupd : updateClassName ((walkStmts pre).foldl updateClassName "")
        (Event.callE ⟨some X, Option.none, Option.none, Option.none⟩)
        = (walkStmts pre).foldl updateClassName "" := rfl
    rw [hupd, runFires_of_no_run _ hpost, Bool.or_false]
    show ((X == (walkStmts pre).foldl updateClassName "") : Bool) = false
    exact beq_eq_false_iff_ne.mpr (fun h => hne h.symm)
  · intro pre post X line heq
    rw [hbody pre post X line, hrfc]
    show (runFires "" (walkStmts pre)
      || (((X == (walkStmts pre).foldl updateClassName "") : Bool) || _)) = true
    rw [show ((X == (walkStmts pre).foldl updateClassName "") : Bool) = true from
      beq_iff_eq.mpr heq.symm]
    simp

/-- Closed witness for claim C10: `run(X)` before `class X(BaseApp)` is not
detected; after it, it is. -/
theorem run_registration_order_sensitive_witness :
    ((walkStmts ([] : List Stmt)).all (fun ev => (runArgOf ev).isNone) = true
     ∧ (walkStmts [Stmt.classDef "X" [.name "BaseApp"] []]).all
         (fun ev => (runArgOf ev).isNone) = true
     ∧ ((walkStmts ([] : List Stmt)).foldl updateClassName "") ≠ "X"
     ∧ (analyze (.ok ([] ++ .exprStmt (.call (.name "run") [.name "X"] [] 1)
         :: [Stmt.classDef "X" [.name "BaseApp"] []]))).has_run_call = false)
    ∧ (((walkStmts [Stmt.classDef "X" [.name "BaseApp"] []]).foldl updateClassName "") = "X"
     ∧ (analyze (.ok ([Stmt.classDef "X" [.name "BaseApp"] []]
         ++ .exprStmt (.call (.name "run") [.name "X"] [] 2) :: []))).has_run_call = true) :=
  ⟨⟨by decide, by decide, by decide,
    run_registration_order_sensitive.1 [] [Stmt.classDef "X" [.name "BaseApp"] []] "X" 1
      (by decide) (by decide) (by decide)⟩,
   ⟨by decide,
    run_registration_order_sensitive.2 [Stmt.classDef "X" [.name "BaseApp"] []] [] "X" 2
      (by decide)⟩⟩

/-! ## OCI registry client (`appstore/oci.py`)

`pull_binary` is embedded as a pure function over the host machine string and a
`RegistryEnv` capturing what the network would return; its network side effects
(token request, manifest requests, blob downloads) are returned as an ordered
trace next to the result. -/

structure PlatformInfo where
  architecture : Option String
  os : Option String
deriving DecidableEq

/-- One entry of a manifest list (`index["manifests"]`). -/
structure ManifestEntry where
  digest : String
  platform : Option PlatformInfo
deriving DecidableEq

structure LayerDesc where
  digest : String
deriving DecidableEq

/-- One member of a layer's tar archive. -/
structure TarMember where
  name : String
  isFile : Bool
  content : String
deriving DecidableEq

/-- A layer blob: either not a valid archive (`tarfile.open` raises) or a list
of tar members in archive order. -/
inductive LayerBlob where
  | invalid
  | archive (members : List TarMember)
deriving DecidableEq

/-- What the registry would answer: the `manifests` entries of the top-level
manifest response for the tag (empty when the response carries none, e.g. a
single-platform manifest), the layer list of each image manifest by digest, and
each blob by digest. -/
structure RegistryEnv where
  index : List ManifestEntry
  imgLayers : String → List LayerDesc
  blob : String → LayerBlob

inductive NetOp where
  | auth (image : String)
  | manifest (image ref : String)
  | blobFetch (image digest : String)
deriving DecidableEq

inductive PullErr where
  | unsupportedArch (machine : String)
  | manifestNotFound (arch image tag : String)
  | binaryNotFound (names : List String) (image tag : String)
deriving DecidableEq

/-- A successful pull: the bytes written to the destination, with the
executable bit set (`os.chmod(dest, 0o755)`). -/
structure PullResult where
  written : String
  executable : Bool
deriving DecidableEq

/-- `OCIClient._detect_arch`: the fixed two-entry machine mapping. -/
def detect_arch (machine : String) : Option String :=
  if machine == "x86_64" || machine == "AMD64" then some "amd64"
  else if machine == "aarch64" || machine == "arm64" then some "arm64"
  else Option.none

/-- `os.path.basename` (POSIX). -/
def posixBasename (p : String) : String :=
  ⟨(p.data.reverse.takeWhile (fun c => c != '/')).reverse⟩

/-- Python `s.lstrip("-")`. -/
def lstripDashes (s : String) : String := ⟨s.data.dropWhile (fun c => c == '-')⟩

/-- Default candidate names: destination basename with leading hyphens trimmed,
plus the `-entrypoint` variant. -/
def defaultBinaryNames (dest : String) : List String :=
  let base := lstripDashes (posixBasename dest)
  [base, base ++ "-entrypoint"]

/-- Python `member.name.lstrip("./")`: removes every leading `'.'` or `'/'`
character (a character-set strip, not a prefix strip). -/
def lstripDotSlash (s : String) : String :=
  ⟨s.data.dropWhile (fun c => c == '.' || c == '/')⟩

/-- The member loop: first member whose stripped name is a candidate and which
is a regular file. -/
def findMember (names : List String) (members : List TarMember) : Option TarMember :=
  members.find? (fun m => names.contains (lstripDotSlash m.name) && m.isFile)

/-- Platform test of one manifest entry:
`p.get("architecture") == arch and p.get("os") == "linux"`. -/
def matchesPlatform (arch : String) (m : ManifestEntry) : Bool :=
  match m.platform with
  | some p => p.architecture == some arch && p.os == some "linux"
  | Option.none => false

/-- The layer scan: download each blob in manifest order, skip blobs that are
not valid archives, and stop at the first matching member, returning the pair
of the blob-fetch trace and the optional result. -/
def scanLayers (env : RegistryEnv) (image : String) (names : List String) :
    List LayerDesc → List NetOp × Option PullResult
  | [] => ([], Option.none)
  | l :: rest =>
    match env.blob l.digest with
    | .invalid =>
      let r := scanLayers env image names rest
      (NetOp.blobFetch image l.digest :: r.1, r.2)
    | .archive members =>
      match findMember names members with
      | some m => ([NetOp.blobFetch image l.digest], some ⟨m.content, true⟩)
      | Option.none =>
        let r := scanLayers env image names rest
        (NetOp.blobFetch image l.digest :: r.1, r.2)

/-- `OCIClient.pull_binary`: detect the architecture, derive default candidate
names, authenticate, fetch the top-level manifest, select the first
linux/arch entry of its manifest list (an absent or empty-digest selection is
the manifest-not-found error), fetch the image manifest, then scan its layers. -/
def pull_binary (machine : String) (env : RegistryEnv) (image dest tag : String)
    (binary_names : Option (List String)) : Except PullErr PullResult × List NetOp :=
  match detect_arch machine with
  | Option.none => (.error (.unsupportedArch machine), [])
  | some arch =>
    let names := match binary_names with
      | Option.none => defaultBinaryNames dest
      | some ns => ns
    let ops0 := [NetOp.auth image, NetOp.manifest image tag]
    let arch_digest := match env.index.find? (matchesPlatform arch) with
      | some e => e.digest
      | Option.none => ""
    if arch_digest == "" then (.error (.manifestNotFound arch image tag), ops0)
    else
      let layers := env.imgLayers arch_digest
      let scanned := scanLayers env image names layers
      match scanned.2 with
      | some r => (.ok r, ops0 ++ NetOp.manifest image arch_digest :: scanned.1)
      | Option.none =>
        (.error (.binaryNotFound names image tag),
         ops0 ++ NetOp.manifest image arch_digest :: scanned.1)

/-! ## Claims C9, C7, C8 -/

/-- An environment whose answers are never consulted. -/
def trivialEnv : RegistryEnv :=
  { index := [], imgLayers := fun _ => [], blob := fun _ => .invalid }

/-- Claim C9: on a machine outside the fixed two-entry architecture mapping,
`pull_binary` fails with the unsupported-architecture error and an empty
network trace — no auth token request and no manifest request is made. -/
theorem unsupported_arch_fails_before_network
    (machine : String) (env : RegistryEnv) (image dest tag : String)
    (bn : Option (List String))
    (h : (["x86_64", "AMD64", "aarch64", "arm64"].contains machine) = false) :
    pull_binary machine env image dest tag bn
      = (.error (.unsupportedArch machine), []) := by
  have hmem : machine ∉ (["x86_64", "AMD64", "aarch64", "arm64"] : List String) := by
    intro hmem
    simp only [List.mem_cons, List.not_mem_nil, or_false] at hmem
    rcases hmem with rfl | rfl | rfl | rfl <;> exact absurd h (by decide)
  simp only [List.mem_cons, List.not_mem_nil, or_false, not_or] at hmem
  have hd : detect_arch machine = Option.none := by
    simp [detect_arch, hmem.1, hmem.2.1, hmem.2.2.1, hmem.2.2.2]
  simp [pull_binary, hd]

/-- Closed witness for claim C9: pulling on a `mips` host. -/
theorem unsupported_arch_fails_before_network_witness :
    (["x86_64", "AMD64", "aarch64", "arm64"].contains "mips") = false
    ∧ pull_binary "mips" trivialEnv "qmcgaw/gluetun" "/usr/local/bin/gluetun" "latest"
        Option.none = (.error (.unsupportedArch "mips"), []) :=
  ⟨by decide,
   unsupported_arch_fails_before_network "mips" trivialEnv "qmcgaw/gluetun"
     "/usr/local/bin/gluetun" "latest" Option.none (by decide)⟩

/-- A registry whose top-level manifest response carries no manifest-list
entries (a single-platform manifest), yet whose layers do hold the binary. -/
def singlePlatformEnv : RegistryEnv :=
  { index := [],
    imgLayers := fun _ => [⟨"sha256:layer1"⟩],
    blob := fun _ => .archive [⟨"gluetun", true, "ELF"⟩] }

/-- Claim C7 counterexample: when the top-level response has no manifest-list
entries, the pull raises the manifest-not-found error rather than skipping
selection and proceeding with the single-platform manifest. -/
theorem single_platform_manifest_response_fails :
    pull_binary "x86_64" singlePlatformEnv "qmcgaw/gluetun" "/usr/local/bin/gluetun"
      "latest" Option.none
      = (.error (.manifestNotFound "amd64" "qmcgaw/gluetun" "latest"),
         [.auth "qmcgaw/gluetun", .manifest "qmcgaw/gluetun" "latest"]) := rfl

theorem pull_binary_selection_aux
    (machine arch : String) (env : RegistryEnv) (image dest tag : String)
    (bn : Option (List String)) (ns : List String)
    (hm : detect_arch machine = some arch)
    (hbn : (match bn with | Option.none => defaultBinaryNames dest | some l => l) = ns)
    (hd : ∀ e ∈ env.index, e.digest ≠ "") :
    ((pull_binary machine env image dest tag bn).1
        = .error (.manifestNotFound arch image tag)
      ↔ env.index.find? (matchesPlatform arch) = Option.none)
    ∧ (∀ e, env.index.find? (matchesPlatform arch) = some e →
        (pull_binary machine env image dest tag bn).2.take 3
          = [NetOp.auth image, NetOp.manifest image tag, NetOp.manifest image e.digest]) := by
  simp only [pull_binary, hm, hbn]
  cases hfind : env.index.find? (matchesPlatform arch) with
  | none =>
    constructor
    · simp
    · intro e he
      exact absurd he (by simp)
  | some e =>
    have hne : e.digest ≠ "" := hd e (List.mem_of_find?_eq_some hfind)
    have hbeq : (e.digest == "") = false := beq_eq_false_iff_ne.mpr hne
    simp only [hbeq, Bool.false_eq_true, if_false]
    constructor
    · cases hscan : (scanLayers env image ns (env.imgLayers e.digest)).2 <;>
        simp [hscan]
    · intro e2 he2
      have he2' : e2 = e := (Option.some.inj he2).symm
      subst he2'
      cases hscan : (scanLayers env image ns (env.imgLayers e2.digest)).2 <;>
        simp [hscan, List.take]

/-- Claim C7 (amended): the selection step always runs; the pull fails with the
manifest-not-found error exactly when no manifest-list entry matches
(linux, arch) — in particular always when the response carries no entries —
and otherwise proceeds by fetching the first matching entry's digest. -/
theorem manifest_selection_always_runs
    (machine arch : String) (env : RegistryEnv) (image dest tag : String)
    (bn : Option (List String))
    (hm : detect_arch machine = some arch)
    (hd : ∀ e ∈ env.index, e.digest ≠ "") :
    ((pull_binary machine env image dest tag bn).1
        = .error (.manifestNotFound arch image tag)
      ↔ env.index.find? (matchesPlatform arch) = Option.none)
    ∧ (∀ e, env.index.find? (matchesPlatform arch) = some e →
        (pull_binary machine env image dest tag bn).2.take 3
          = [NetOp.auth image, NetOp.manifest image tag, NetOp.manifest image e.digest]) :=
  pull_binary_selection_aux machine arch env image dest tag bn _ hm rfl hd

/-- A registry answering with one matching `amd64` manifest-list entry. -/
def onePlatformEnv : RegistryEnv :=
  { index := [⟨"sha256:abc", some ⟨some "amd64", some "linux"⟩⟩],
    imgLayers := fun _ => [],
    blob := fun _ => .invalid }

/-- Closed witness for claim C7's amended theorem. -/
theorem manifest_selection_always_runs_witness :
    detect_arch "x86_64" = some "amd64"
    ∧ (∀ e ∈ onePlatformEnv.index, e.digest ≠ "")
    ∧ (((pull_binary "x86_64" onePlatformEnv "img" "/opt/bin/x" "latest" (some ["x"])).1
          = .error (.manifestNotFound "amd64" "img" "latest"))
        ↔ onePlatformEnv.index.find? (matchesPlatform "amd64") = Option.none) :=
  ⟨rfl, by decide,
   (manifest_selection_always_runs "x86_64" "amd64" onePlatformEnv "img" "/opt/bin/x"
     "latest" (some ["x"]) rfl (by decide)).1⟩

/-- The specification's words for the name comparison: ignore one leading
`"./"` prefix, nothing else. -/
def specStripLeadingDotSlash (s : String) : String :=
  if startsWithL s "./" then ⟨s.data.drop 2⟩ else s

/-- A layer whose only file is the hidden file `.foo`. -/
def hiddenFileEnv : RegistryEnv :=
  { index := [⟨"sha256:m1", some ⟨some "amd64", some "linux"⟩⟩],
    imgLayers := fun _ => [⟨"sha256:L1"⟩],
    blob := fun _ => .archive [⟨".foo", true, "SECRET"⟩] }

/-- Claim C8 counterexample: a member named `.foo` — whose name with a leading
`"./"` ignored is still `.foo`, not in the candidate set `["foo"]` — is
nevertheless matched and installed, because `lstrip("./")` removes every
leading `'.'` and `'/'` character. -/
theorem hidden_file_member_matches :
    (pull_binary "x86_64" hiddenFileEnv "img" "/opt/bin/foo" "latest" (some ["foo"])).1
      = .ok ⟨"SECRET", true⟩
    ∧ specStripLeadingDotSlash ".foo" = ".foo"
    ∧ (["foo"].contains (specStripLeadingDotSlash ".foo")) = false := ⟨rfl, rfl, by decide⟩

/-- Whether a layer's blob is a valid archive holding a matching member. -/
def layerMatches (env : RegistryEnv) (names : List String) (l : LayerDesc) : Bool :=
  match env.blob l.digest with
  | .invalid => false
  | .archive members => (findMember names members).isSome

/-- Index of the first list element satisfying `p`. -/
def firstIdx {α : Type} (p : α → Bool) : List α → Option Nat
  | [] => Option.none
  | a :: l => if p a then some 0 else (firstIdx p l).map (· + 1)

theorem scanLayers_found (env : RegistryEnv) (image : String) (names : List String) :
    ∀ (layers : List LayerDesc) (i : Nat),
      firstIdx (layerMatches env names) layers = some i →
      (∃ l ms m, layers[i]? = some l ∧ env.blob l.digest = .archive ms
         ∧ findMember names ms = some m
         ∧ (scanLayers env image names layers).2 = some ⟨m.content, true⟩)
      ∧ (scanLayers env image names layers).1
          = (layers.take (i + 1)).map (fun l => NetOp.blobFetch image l.digest) := by
  intro layers
  induction layers with
  | nil => intro i h; exact absurd h (by simp [firstIdx])
  | cons l rest ih =>
    intro i h
    by_cases hm : layerMatches env names l = true
    · have hi : i = 0 := by
        simp [firstIdx, hm] at h
        omega
      subst hi
      cases hblob : env.blob l.digest with
      | invalid => simp [layerMatches, hblob] at hm
      | archive ms =>
        have hfm : (findMember names ms).isSome = true := by
          simpa [layerMatches, hblob] using hm
        obtain ⟨m, hm2⟩ := Option.isSome_iff_exists.mp hfm
        refine ⟨⟨l, ms, m, by simp, hblob, hm2, ?_⟩, ?_⟩
        · simp [scanLayers, hblob, hm2]
        · simp [scanLayers, hblob, hm2, List.take]
    · have hm' : layerMatches env names l = false := by
        simpa using hm
      simp only [firstIdx, hm', Bool.false_eq_true, if_false] at h
      obtain ⟨j, hj, hji⟩ := Option.map_eq_some'.mp h
      subst hji
      obtain ⟨⟨l', ms, m, hget, hblob', hfm', hres⟩, htr⟩ := ih j hj
      cases hblob : env.blob l.digest with
      | invalid =>
        refine ⟨⟨l', ms, m, by simpa using hget, hblob', hfm', ?_⟩, ?_⟩
        · simp [scanLayers, hblob, hres]
        · simp [scanLayers, hblob, htr, List.take]
      | archive ms0 =>
        have hfm0 : findMember names ms0 = Option.none := by
          cases hf : findMember names ms0 with
          | none => rfl
          | some mm =>
            simp [layerMatches, hblob, hf] at hm'
        refine ⟨⟨l', ms, m, by simpa using hget, hblob', hfm', ?_⟩, ?_⟩
        · simp [scanLayers, hblob, hfm0, hres]
        · simp [scanLayers, hblob, hfm0, htr, List.take]

theorem scanLayers_not_found (env : RegistryEnv) (image : String) (names : List String) :
    ∀ layers : List LayerDesc,
      firstIdx (layerMatches env names) layers = Option.none →
      (scanLayers env image names layers).2 = Option.none
      ∧ (scanLayers env image names layers).1
          = layers.map (fun l => NetOp.blobFetch image l.digest) := by
  intro layers
  induction layers with
  | nil => intro _; exact ⟨rfl, rfl⟩
  | cons l rest ih =>
    intro h
    by_cases hm : layerMatches env names l = true
    · simp [firstIdx, hm] at h
    · have hm' : layerMatches env names l = false := by simpa using hm
      simp only [firstIdx, hm', Bool.false_eq_true, if_false, Option.map_eq_none'] at h
      obtain ⟨hres, htr⟩ := ih h
      cases hblob : env.blob l.digest with
      | invalid => exact ⟨by simp [scanLayers, hblob, hres], by simp [scanLayers, hblob, htr]⟩
      | archive ms0 =>
        have hfm0 : findMember names ms0 = Option.none := by
          cases hf : findMember names ms0 with
          | none => rfl
          | some mm =>
            simp [layerMatches, hblob, hf] at hm'
        exact ⟨by simp [scanLayers, hblob, hfm0, hres],
               by simp [scanLayers, hblob, hfm0, htr]⟩

/-- Claim C8 (amended): layers are scanned in manifest order; the first layer
that is a valid archive holding a regular-file member whose name, with every
leading `'.'`/`'/'` character removed, is in the candidate set wins: its first
such member's content is written, the destination made executable, and no
later layer's blob is fetched; an invalid blob is skipped; only when no layer
matches does the pull fail with the binary-not-found error naming the
candidate set. -/
theorem layer_scan_first_match_wins :
    (∀ (env : RegistryEnv) (image : String) (names : List String)
        (layers : List LayerDesc) (i : Nat),
      firstIdx (layerMatches env names) layers = some i →
      (∃ l ms m, layers[i]? = some l ∧ env.blob l.digest = .archive ms
         ∧ findMember names ms = some m
         ∧ (scanLayers env image names layers).2 = some ⟨m.content, true⟩)
      ∧ (scanLayers env image names layers).1
          = (layers.take (i + 1)).map (fun l => NetOp.blobFetch image l.digest))
    ∧ (∀ (env : RegistryEnv) (image : String) (names : List String)
        (layers : List LayerDesc),
      firstIdx (layerMatches env names) layers = Option.none →
      (scanLayers env image names layers).2 = Option.none
      ∧ (scanLayers env image names layers).1
          = layers.map (fun l => NetOp.blobFetch image l.digest))
    ∧ (∀ (machine arch : String) (env : RegistryEnv) (image dest tag : String)
        (ns : List String) (e : ManifestEntry),
      detect_arch machine = some arch →
      env.index.find? (matchesPlatform arch) = some e →
      e.digest ≠ "" →
      ((scanLayers env image ns (env.imgLayers e.digest)).2 = Option.none →
        (pull_binary machine env image dest tag (some ns)).1
          = .error (.binaryNotFound ns image tag))
      ∧ (∀ r, (scanLayers env image ns (env.imgLayers e.digest)).2 = some r →
        (pull_binary machine env image dest tag (some ns)).1 = .ok r)) := by
  refine ⟨fun env image names layers i => scanLayers_found env image names layers i,
    fun env image names layers => scanLayers_not_found env image names layers,
    fun machine arch env image dest tag ns e hm hfind hne => ⟨?_, ?_⟩⟩
  · intro hscan
    simp [pull_binary, hm, hfind, beq_eq_false_iff_ne.mpr hne, hscan]
  · intro r hscan
    simp [pull_binary, hm, hfind, beq_eq_false_iff_ne.mpr hne, hscan]

/-- Four layers: an invalid blob, an archive without the target, the archive
holding `./foo`, and one more archive that must not be opened. -/
def fourLayerEnv : RegistryEnv :=
  { index := [⟨"sha256:m", some ⟨some "amd64", some "linux"⟩⟩],
    imgLayers := fun _ => [⟨"L1"⟩, ⟨"L2"⟩, ⟨"L3"⟩, ⟨"L4"⟩],
    blob := fun d =>
      if d == "L1" then .invalid
      else if d == "L2" then .archive [⟨"other", true, "X"⟩]
      else if d == "L3" then .archive [⟨"./foo", true, "BIN3"⟩]
      else .archive [⟨"foo", true, "BIN4"⟩] }

/-- Closed witness for claim C8's amended theorem: the binary sits in the third
of four layers; the scan succeeds with exactly that layer's content and only
the first three blobs are fetched. -/
theorem layer_scan_first_match_wins_witness :
    firstIdx (layerMatches fourLayerEnv ["foo"]) (fourLayerEnv.imgLayers "sha256:m") = some 2
    ∧ ((∃ l ms m, (fourLayerEnv.imgLayers "sha256:m")[2]? = some l
         ∧ fourLayerEnv.blob l.digest = .archive ms
         ∧ findMember ["foo"] ms = some m
         ∧ (scanLayers fourLayerEnv "img" ["foo"] (fourLayerEnv.imgLayers "sha256:m")).2
             = some ⟨m.content, true⟩)
       ∧ (scanLayers fourLayerEnv "img" ["foo"] (fourLayerEnv.imgLayers "sha256:m")).1
           = (((fourLayerEnv.imgLayers "sha256:m").take 3).map
               (fun l => NetOp.blobFetch "img" l.digest))) :=
  ⟨by decide,
   layer_scan_first_match_wins.1 fourLayerEnv "img" ["foo"]
     (fourLayerEnv.imgLayers "sha256:m") 2 (by decide)⟩
